import Mathlib

/-! Verification of the worker fan-out HTTP server (`main.go`).

The server has two handlers.  `healthHandler` writes a fixed response.
`mainHandler` launches `numWorkers` goroutines, waits for them on a
`sync.WaitGroup` and then writes a one-line summary.

The sequential code is embedded as pure functions on an explicit response
writer.  The concurrent code is embedded as an executable interleaving
semantics: a state holds the program counter of the handler goroutine, the
WaitGroup counter, the program counters of the worker goroutines, standard
output and the response writer; a schedule is a list of thread identifiers,
and `run` executes a schedule step by step.
-/

namespace Server

/-! ## `fmt`: the formatting that the program uses -/

/-- Expansion of a format string over its characters.  Only the verb `%d`
with an operand available is interpreted (the program uses no other verb and
always supplies the operands); every other character is copied. -/
def formatChars : List Char → List Int → List Char
  | [], _ => []
  | '%' :: 'd' :: rest, a :: args => (toString a).toList ++ formatChars rest args
  | c :: rest, args => c :: formatChars rest args

/-- The text produced by `fmt.Sprintf format args...` (integer operands). -/
def Sprintf (format : String) (args : List Int) : String :=
  String.mk (formatChars format.toList args)

/-- Go's `strings.Contains s substr`, as a proposition on the characters. -/
def Contains (s substr : String) : Prop :=
  substr.toList <:+: s.toList

/-! ## `net/http`: requests and response writers -/

/-- An incoming HTTP request, as far as a handler can observe it. -/
structure Request where
  method : String
  path : String
  header : List (String × String)
  body : String
deriving DecidableEq, Repr

/-- The value of `http.StatusOK`. -/
def StatusOK : Nat := 200

/-- The observable state of an `http.ResponseWriter`: the status code sent
with the header (`none` while no header has been written) and the bytes
written to the body so far. -/
structure ResponseWriter where
  status : Option Nat
  body : String
deriving DecidableEq, Repr

/-- A response writer on which nothing has been written yet. -/
def ResponseWriter.fresh : ResponseWriter :=
  { status := none, body := "" }

/-- The method `w.WriteHeader(code)`: sends the header with `code`; a second
call has no effect on the status. -/
def ResponseWriter.WriteHeader (w : ResponseWriter) (code : Nat) : ResponseWriter :=
  match w.status with
  | some _ => w
  | none => { w with status := some code }

/-- The method `w.Write(p)`: if no header has been written yet it first
performs `WriteHeader(http.StatusOK)`, then appends `p` to the body. -/
def ResponseWriter.Write (w : ResponseWriter) (p : String) : ResponseWriter :=
  let w1 := w.WriteHeader StatusOK
  { w1 with body := w1.body ++ p }

/-- The call `fmt.Fprintf(w, format, args...)` on a response writer. -/
def Fprintf (w : ResponseWriter) (format : String) (args : List Int) : ResponseWriter :=
  w.Write (Sprintf format args)

/-! ## `healthHandler` (main.go, lines 18-21) -/

/-- The handler `healthHandler(w, r)`. -/
def healthHandler (w : ResponseWriter) (_r : Request) : ResponseWriter :=
  Fprintf (w.WriteHeader StatusOK) "OK" []

/-! ## `worker` (main.go, lines 11-16) -/

/-- An effect performed by a worker goroutine. -/
inductive Effect where
  /-- The call `fmt.Printf` producing the given text on standard output. -/
  | print (text : String)
  /-- The call `time.Sleep(d)`, with `d` in nanoseconds. -/
  | sleep (d : Nat)
  /-- The call `wg.Done()`. -/
  | wgDone
deriving DecidableEq, Repr

/-- A statement of a function body: an effect executed in place, or an effect
registered with `defer`. -/
inductive Stmt where
  | exec (e : Effect)
  | defer (e : Effect)
deriving DecidableEq, Repr

/-- Execution of a function body: statements run in order, a `defer` pushes
its call on the stack of deferred calls, and at the end of the body the
deferred calls run, last registered first. -/
def runBody : List Stmt → List Effect → List Effect
  | [], deferred => deferred
  | Stmt.exec e :: rest, deferred => e :: runBody rest deferred
  | Stmt.defer e :: rest, deferred => runBody rest (e :: deferred)

/-- The value of `time.Second`, a duration in nanoseconds. -/
def Second : Nat := 1000000000

/-- The body of `worker(id, wg)`, statement by statement. -/
def workerBody (id : Nat) : List Stmt :=
  [ Stmt.defer Effect.wgDone,
    Stmt.exec (Effect.print (Sprintf "Worker %d starting\n" [(id : Int)])),
    Stmt.exec (Effect.sleep (Second * 2)),
    Stmt.exec (Effect.print (Sprintf "Worker %d done\n" [(id : Int)])) ]

/-- The sequence of effects of one call `worker(id, wg)`. -/
def worker (id : Nat) : List Effect :=
  runBody (workerBody id) []

/-! ## `mainHandler` (main.go, lines 23-35) as an interleaving semantics -/

/-- The program counter of the goroutine that runs `mainHandler`. -/
inductive Pc where
  /-- At the loop test `i <= numWorkers` (line 27), with the value of `i`. -/
  | loop (i : Nat)
  /-- After `wg.Add(1)` (line 28), before `go worker(i, &wg)` (line 29). -/
  | launch (i : Nat)
  /-- At `wg.Wait()` (line 32). -/
  | wait
  /-- After `wg.Wait()` returned, before `fmt.Fprintf` (line 34). -/
  | respond
  /-- The handler has returned. -/
  | returned
deriving DecidableEq, Repr

/-- A worker goroutine: the `id` it was started with and the number of
effects of `worker id` it has already performed. -/
structure Goroutine where
  id : Nat
  pc : Nat
deriving DecidableEq, Repr

/-- The state of one invocation of `mainHandler`. -/
structure State where
  /-- Program counter of the handler goroutine. -/
  pc : Pc
  /-- The counter of the local `sync.WaitGroup`. -/
  wg : Int
  /-- The worker goroutines, in the order in which they were launched. -/
  workers : List Goroutine
  /-- The lines printed on standard output, in order. -/
  stdout : List String
  /-- The response writer passed to the handler. -/
  w : ResponseWriter
  /-- Whether a goroutine has panicked (negative WaitGroup counter). -/
  panicked : Bool
deriving DecidableEq, Repr

/-- The constant `numWorkers` of `mainHandler`. -/
def numWorkers : Nat := 5

/-- The state on entry to the handler: `wg` is the zero WaitGroup, no worker
exists, and the loop variable is initialised to `1`.  The request is not
inspected. -/
def init (w : ResponseWriter) (_r : Request) : State :=
  { pc := Pc.loop 1, wg := 0, workers := [], stdout := [], w := w, panicked := false }

/-- One step of the handler goroutine, with `n` the value of `numWorkers` and
`cpus` the value returned by `runtime.NumCPU()`.  `wg.Wait()` can only return
when the counter is zero; otherwise the goroutine is blocked (`none`). -/
def stepMain (n cpus : Nat) (s : State) : Option State :=
  if s.panicked then none else
  match s.pc with
  | Pc.loop i =>
    if i ≤ n then some { s with wg := s.wg + 1, pc := Pc.launch i }
    else some { s with pc := Pc.wait }
  | Pc.launch i =>
    some { s with workers := s.workers ++ [{ id := i, pc := 0 }], pc := Pc.loop (i + 1) }
  | Pc.wait =>
    if s.wg = 0 then some { s with pc := Pc.respond } else none
  | Pc.respond =>
    some { s with
      w := Fprintf s.w "Completed %d workers using %d CPUs\n" [(n : Int), (cpus : Int)],
      pc := Pc.returned }
  | Pc.returned => none

/-- One step of the `k`-th worker goroutine: it performs its next effect.
`wg.Done()` decrements the counter and panics if the counter becomes
negative. -/
def stepWorker (k : Nat) (s : State) : Option State :=
  if s.panicked then none else
  match s.workers[k]? with
  | none => none
  | some g =>
    match (worker g.id)[g.pc]? with
    | none => none
    | some e =>
      let ws := s.workers.set k { g with pc := g.pc + 1 }
      match e with
      | Effect.print text => some { s with workers := ws, stdout := s.stdout ++ [text] }
      | Effect.sleep _ => some { s with workers := ws }
      | Effect.wgDone =>
        if s.wg - 1 < 0 then some { s with workers := ws, wg := s.wg - 1, panicked := true }
        else some { s with workers := ws, wg := s.wg - 1 }

/-- A thread identifier: the handler goroutine or the `k`-th worker. -/
inductive Tid where
  | main
  | worker (k : Nat)
deriving DecidableEq, Repr

/-- One step of the thread chosen by the scheduler. -/
def step (n cpus : Nat) (t : Tid) (s : State) : Option State :=
  match t with
  | Tid.main => stepMain n cpus s
  | Tid.worker k => stepWorker k s

/-- Execution of a schedule; `none` if the schedule picks a thread that cannot
take a step. -/
def run (n cpus : Nat) : List Tid → State → Option State
  | [], s => some s
  | t :: sched, s =>
    match step n cpus t s with
    | none => none
    | some s1 => run n cpus sched s1

/-- The effects that a worker goroutine has performed so far. -/
def executed (g : Goroutine) : List Effect :=
  (worker g.id).take g.pc

/-- All effects performed so far by the workers of an invocation. -/
def performed (s : State) : List Effect :=
  s.workers.flatMap executed

/-- The number of completion signals (`wg.Done()` calls) received so far. -/
def signals (s : State) : Nat :=
  (performed s).count Effect.wgDone

/-- The texts among a list of effects that went to standard output. -/
def printed : List Effect → List String :=
  List.filterMap fun e =>
    match e with
    | Effect.print text => some text
    | _ => none

/-- Two invocations of the handler in progress at the same time (two requests
served concurrently): a step of the pair is a step of one of the two, each on
its own state. -/
def stepBoth (n cpus : Nat) (second : Bool) (t : Tid) (p : State × State) :
    Option (State × State) :=
  if second then (step n cpus t p.2).map fun b => (p.1, b)
  else (step n cpus t p.1).map fun a => (a, p.2)

/-- The fan-out/fan-in algorithm of `mainHandler` with the number of workers
`n` as a parameter, run under a schedule: the state reached, or `none` if the
schedule asks a blocked or finished thread to move. -/
def executor (n cpus : Nat) (w : ResponseWriter) (r : Request) (sched : List Tid) :
    Option State :=
  run n cpus sched (init w r)

/-- The handler `mainHandler(w, r)` on a host with `cpus` logical CPUs, run
under a schedule. -/
def mainHandler (cpus : Nat) (w : ResponseWriter) (r : Request) (sched : List Tid) :
    Option State :=
  executor numWorkers cpus w r sched

/-! ## `main` (main.go, lines 37-45) and the route table -/

/-- The two handler functions that `main` registers. -/
inductive Handler where
  | mainHandler
  | healthHandler
deriving DecidableEq, Repr

/-- The route table of an `http.ServeMux`: the registered patterns with their
handlers, in registration order. -/
structure ServeMux where
  entries : List (String × Handler)
deriving DecidableEq, Repr

/-- The value of `http.DefaultServeMux` at process start: no pattern registered. -/
def DefaultServeMux : ServeMux := { entries := [] }

/-- The call `http.HandleFunc(pattern, h)` on a mux.  The library panics on
an empty pattern and on a pattern that is already registered. -/
def ServeMux.HandleFunc (mux : ServeMux) (pattern : String) (h : Handler) :
    Except String ServeMux :=
  if pattern = "" then Except.error "http: invalid pattern"
  else if mux.entries.any (fun e => decide (e.1 = pattern)) then
    Except.error ("http: multiple registrations for " ++ pattern)
  else Except.ok { entries := mux.entries ++ [(pattern, h)] }

/-- The entry with the longest pattern among a list of entries. -/
def longest : List (String × Handler) → Option (String × Handler)
  | [] => none
  | e :: es =>
    match longest es with
    | none => some e
    | some f => if e.1.length < f.1.length then some f else some e

/-- The method `match` of Go's `http.ServeMux`, the last step of the
dispatch (the cleaning of the path and the redirects come before it, in
`ServeMux.Handler` below): a pattern equal to the path wins; otherwise the
longest registered pattern that ends in `/` and is an initial segment of the
path (a pattern with a trailing slash names a rooted subtree, and `/` matches
every path that no other pattern matches); otherwise no handler. -/
def ServeMux.matchPath (mux : ServeMux) (path : String) : Option Handler :=
  match mux.entries.find? (fun e => decide (e.1 = path)) with
  | some e => some e.2
  | none =>
    (longest (mux.entries.filter fun e =>
      decide (e.1.toList.getLast? = some '/') && e.1.toList.isPrefixOf path.toList)).map
        Prod.snd

/-- The backtracking of Go's `path.Clean` at a `..` element, on the output
buffer held in reverse: the last byte is dropped, and further bytes are
dropped as long as the buffer is longer than `dotdot` and the byte just
dropped is not a slash. -/
def backtrack (dotdot : Nat) : List Char → List Char
  | [] => []
  | c :: out => if dotdot < out.length && c != '/' then backtrack dotdot out else out

/-- The effect of a `..` element in `path.Clean` on the output buffer (held in
reverse) and on the index `dotdot`: backtrack if possible; otherwise, in a
path that is not rooted, append the element; otherwise drop it. -/
def dotdotElem (rooted : Bool) (out : List Char) (dotdot : Nat) : List Char × Nat :=
  if dotdot < out.length then (backtrack dotdot out, dotdot)
  else if !rooted then
    let out1 := if 0 < out.length then '/' :: out else out
    ('.' :: '.' :: out1, out1.length + 2)
  else (out, dotdot)

/-- The loop of `path.Clean` over the unread part of the path, with the
output buffer held in reverse.  The flag `copying` tells that the loop is
inside a real path element, which is copied up to the next slash. -/
def cleanLoop (rooted : Bool) : Bool → List Char → List Char → Nat → List Char
  | _, [], out, _ => out
  | _, '/' :: rest, out, dotdot => cleanLoop rooted false rest out dotdot
  | true, c :: rest, out, dotdot => cleanLoop rooted true rest (c :: out) dotdot
  | false, ['.'], out, _ => out
  | false, '.' :: '/' :: rest, out, dotdot => cleanLoop rooted false rest out dotdot
  | false, ['.', '.'], out, dotdot => (dotdotElem rooted out dotdot).1
  | false, '.' :: '.' :: '/' :: rest, out, dotdot =>
    cleanLoop rooted false rest (dotdotElem rooted out dotdot).1 (dotdotElem rooted out dotdot).2
  | false, c :: rest, out, dotdot =>
    cleanLoop rooted true rest
      (c :: (if (rooted && out.length != 1) || (!rooted && out.length != 0) then '/' :: out
        else out)) dotdot

/-- Go's `path.Clean`. -/
def Clean (path : String) : String :=
  match path.toList with
  | [] => "."
  | c :: rest =>
    let out :=
      if c = '/' then cleanLoop true false rest ['/'] 1
      else cleanLoop false false (c :: rest) [] 0
    if out.length = 0 then "." else String.mk out.reverse

/-- The function `cleanPath` of `net/http`: the canonical form of a request
path, rooted, without empty, `.` and `..` elements, with a trailing slash
kept. -/
def cleanPath (p : String) : String :=
  if p = "" then "/" else
  let p1 := if p.toList.head? = some '/' then p else "/" ++ p
  let np := Clean p1
  if p1.toList.getLast? = some '/' && np != "/" then
    if p1.length == np.length + 1 && np.toList.isPrefixOf p1.toList then p1 else np ++ "/"
  else np


/-- The parts of a request that the mux reads. -/
structure Target where
  /-- The field `r.RequestURI`. -/
  requestURI : String
  /-- The field `r.Method`. -/
  method : String
  /-- The field `r.Host`. -/
  host : String
  /-- The field `r.URL.Host`. -/
  urlHost : String
  /-- The field `r.URL.Path`. -/
  path : String
deriving DecidableEq, Repr

/-- What the mux does with a request. -/
inductive Dispatch where
  /-- A registered handler is called. -/
  | handler (h : Handler)
  /-- The request is answered by `http.RedirectHandler(target, 301)`. -/
  | redirect (target : String)
  /-- The request is answered by `http.NotFoundHandler()`. -/
  | notFound
  /-- The request is answered with status 400. -/
  | badRequest
deriving DecidableEq, Repr

/-- Whether a pattern is registered (a key of the map `mux.m`). -/
def ServeMux.registered (mux : ServeMux) (pattern : String) : Bool :=
  mux.entries.any fun e => decide (e.1 = pattern)

/-- The field `mux.hosts`: whether some pattern does not begin with a slash. -/
def ServeMux.hosts (mux : ServeMux) : Bool :=
  mux.entries.any fun e => decide (e.1.toList.head? ≠ some '/')

/-- The method `shouldRedirectRLocked`: whether `path` is not registered while
`path` followed by a slash is. -/
def ServeMux.shouldRedirect (mux : ServeMux) (host path : String) : Bool :=
  if mux.registered path || mux.registered (host ++ path) then false
  else if path.length = 0 then false
  else if mux.registered (path ++ "/") || mux.registered (host ++ path ++ "/") then
    decide (path.toList.getLast? ≠ some '/')
  else false

/-- The method `mux.handler(host, path)`: a host-specific pattern first, then
a generic one, then the not-found handler. -/
def ServeMux.handler (mux : ServeMux) (host path : String) : Dispatch :=
  match (if mux.hosts then mux.matchPath (host ++ path) else none) with
  | some h => Dispatch.handler h
  | none =>
    match mux.matchPath path with
    | some h => Dispatch.handler h
    | none => Dispatch.notFound

/-- The method `mux.Handler(r)`, with the library function `stripHostPort` as
a parameter.  A `CONNECT` request is matched as it is; for every other
request the path is cleaned, and a request whose path is not clean is
answered with a redirect to the clean path. -/
def ServeMux.Handler (mux : ServeMux) (stripHostPort : String → String) (t : Target) :
    Dispatch :=
  if t.method = "CONNECT" then
    if mux.shouldRedirect t.urlHost t.path then Dispatch.redirect (t.path ++ "/")
    else mux.handler t.host t.path
  else
    let host := stripHostPort t.host
    let path := cleanPath t.path
    if mux.shouldRedirect host path then Dispatch.redirect (path ++ "/")
    else if path ≠ t.path then Dispatch.redirect path
    else mux.handler host t.path

/-- The method `mux.ServeHTTP(w, r)`, up to the choice of the handler that
answers the request. -/
def ServeMux.ServeHTTP (mux : ServeMux) (stripHostPort : String → String) (t : Target) :
    Dispatch :=
  if t.requestURI = "*" then Dispatch.badRequest else mux.Handler stripHostPort t

/-- What the call `http.ListenAndServe(addr, nil)` does, as seen by `main`:
it serves forever, or it returns with an error value (possibly `nil`). -/
inductive ServeResult where
  | blocks
  | returns (err : Option String)
deriving DecidableEq, Repr

/-- How `main` ends: it never ends (the server is serving), it returns
normally, or it panics with an error. -/
inductive Exit where
  | serving
  | returned
  | panicked (err : String)
deriving DecidableEq, Repr

/-- The observable result of running `main`. -/
structure Process where
  /-- The route table after the registrations. -/
  mux : ServeMux
  /-- The lines printed on standard output. -/
  stdout : List String
  /-- The address passed to `http.ListenAndServe`, if the call was reached. -/
  listening : Option String
  /-- How `main` ends. -/
  exit : Exit
deriving DecidableEq, Repr

/-- The function `main`, with the behaviour of `http.ListenAndServe` given
as a parameter. -/
def main (ListenAndServe : String → ServeMux → ServeResult) : Process :=
  match DefaultServeMux.HandleFunc "/" Handler.mainHandler with
  | Except.error e =>
    { mux := DefaultServeMux, stdout := [], listening := none, exit := Exit.panicked e }
  | Except.ok m1 =>
    match m1.HandleFunc "/health" Handler.healthHandler with
    | Except.error e => { mux := m1, stdout := [], listening := none, exit := Exit.panicked e }
    | Except.ok m2 =>
      let out := ["Server starting on :8080\n"]
      match ListenAndServe ":8080" m2 with
      | ServeResult.blocks =>
        { mux := m2, stdout := out, listening := some ":8080", exit := Exit.serving }
      | ServeResult.returns none =>
        { mux := m2, stdout := out, listening := some ":8080", exit := Exit.returned }
      | ServeResult.returns (some err) =>
        { mux := m2, stdout := out, listening := some ":8080", exit := Exit.panicked err }

/-- Go's `net.SplitHostPort` on an address without brackets: the host is the
text before the last colon and the port the text after it.  An empty host
stands for all interfaces. -/
def SplitHostPort (hostport : String) : Option (String × String) :=
  let cs := hostport.toList
  let port := (cs.reverse.takeWhile fun c => c != ':').reverse
  if port.length < cs.length then
    some (String.mk (cs.take (cs.length - port.length - 1)), String.mk port)
  else none

/-! ## Concrete executions used as examples -/

/-- A `GET /` request. -/
def getRoot : Request :=
  { method := "GET", path := "/", header := [], body := "" }

/-- A `POST /anything` request with a header and a body. -/
def postOther : Request :=
  { method := "POST", path := "/anything", header := [("X-Trace", "1")], body := "payload" }

/-- A `GET /foo` request, as the mux sees it. -/
def getFoo : Target :=
  { requestURI := "/foo", method := "GET", host := "localhost:8080", urlHost := "",
    path := "/foo" }

/-- A `GET /health/x` request, as the mux sees it. -/
def getHealthX : Target :=
  { requestURI := "/health/x", method := "GET", host := "localhost:8080", urlHost := "",
    path := "/health/x" }

/-- A `GET /foo/../health` request, as the mux sees it. -/
def getDotDot : Target :=
  { requestURI := "/foo/../health", method := "GET", host := "localhost:8080", urlHost := "",
    path := "/foo/../health" }

/-- The eleven handler steps that launch five workers and reach `wg.Wait()`. -/
def launchAll : List Tid :=
  List.replicate 11 Tid.main

/-- A complete schedule for five workers: all workers are launched, then they
advance in lockstep, then the handler writes the response. -/
def lockstep : List Tid :=
  launchAll ++
    [ Tid.worker 0, Tid.worker 1, Tid.worker 2, Tid.worker 3, Tid.worker 4,
      Tid.worker 0, Tid.worker 1, Tid.worker 2, Tid.worker 3, Tid.worker 4,
      Tid.worker 0, Tid.worker 1, Tid.worker 2, Tid.worker 3, Tid.worker 4,
      Tid.worker 0, Tid.worker 1, Tid.worker 2, Tid.worker 3, Tid.worker 4,
      Tid.main, Tid.main ]

/-- A complete schedule for five workers in which each worker runs to its end
as soon as it is launched, the last launched finishing first among the last
two. -/
def eager : List Tid :=
  [ Tid.main, Tid.main, Tid.worker 0, Tid.worker 0, Tid.worker 0, Tid.worker 0,
    Tid.main, Tid.main, Tid.worker 1, Tid.worker 1, Tid.worker 1, Tid.worker 1,
    Tid.main, Tid.main, Tid.worker 2, Tid.worker 2, Tid.worker 2, Tid.worker 2,
    Tid.main, Tid.main, Tid.main, Tid.main,
    Tid.worker 4, Tid.worker 4, Tid.worker 4, Tid.worker 4,
    Tid.worker 3, Tid.worker 3, Tid.worker 3, Tid.worker 3,
    Tid.main, Tid.main, Tid.main ]

/-- Five workers with the given program counter. -/
def fiveWorkers (pc : Nat) : List Goroutine :=
  [ { id := 1, pc := pc }, { id := 2, pc := pc }, { id := 3, pc := pc },
    { id := 4, pc := pc }, { id := 5, pc := pc } ]

/-- The state after `launchAll`: the handler waits, no worker has moved. -/
def waiting : State :=
  { pc := Pc.wait, wg := 5, workers := fiveWorkers 0, stdout := [],
    w := ResponseWriter.fresh, panicked := false }

/-- The state at the end of `lockstep` on a host with four CPUs. -/
def finished : State :=
  { pc := Pc.returned, wg := 0, workers := fiveWorkers 4,
    stdout :=
      [ "Worker 1 starting\n", "Worker 2 starting\n", "Worker 3 starting\n",
        "Worker 4 starting\n", "Worker 5 starting\n",
        "Worker 1 done\n", "Worker 2 done\n", "Worker 3 done\n",
        "Worker 4 done\n", "Worker 5 done\n" ],
    w := { status := some 200, body := "Completed 5 workers using 4 CPUs\n" },
    panicked := false }

/-- The state at the end of `eager` on a host with four CPUs. -/
def finishedEager : State :=
  { pc := Pc.returned, wg := 0, workers := fiveWorkers 4,
    stdout :=
      [ "Worker 1 starting\n", "Worker 1 done\n", "Worker 2 starting\n", "Worker 2 done\n",
        "Worker 3 starting\n", "Worker 3 done\n", "Worker 5 starting\n", "Worker 5 done\n",
        "Worker 4 starting\n", "Worker 4 done\n" ],
    w := { status := some 200, body := "Completed 5 workers using 4 CPUs\n" },
    panicked := false }

/-- The state at the end of the only complete schedule with no worker. -/
def finishedNone : State :=
  { pc := Pc.returned, wg := 0, workers := [], stdout := [],
    w := { status := some 200, body := "Completed 0 workers using 4 CPUs\n" },
    panicked := false }

/-! ## Auxiliary definitions for the invariant -/

/-- The number of workers launched when the handler is at a given point. -/
def launched : Pc → Nat → Nat
  | Pc.loop i, _ => i - 1
  | Pc.launch i, _ => i - 1
  | _, n => n

/-- The number of `wg.Add(1)` calls made when the handler is at a given point. -/
def added : Pc → Nat → Nat
  | Pc.loop i, _ => i - 1
  | Pc.launch i, _ => i
  | _, n => n

/-- The range of the loop variable at the two program points inside the loop. -/
def inRange : Pc → Nat → Prop
  | Pc.loop i, n => 1 ≤ i ∧ i ≤ n + 1
  | Pc.launch i, n => 1 ≤ i ∧ i ≤ n
  | _, _ => True

/-- The summary response written by the handler on the writer `w0`. -/
def summary (n cpus : Nat) (w0 : ResponseWriter) : ResponseWriter :=
  Fprintf w0 "Completed %d workers using %d CPUs\n" [(n : Int), (cpus : Int)]

/-- The invariant of one invocation of the handler started on the writer `w0`. -/
structure Inv (n cpus : Nat) (w0 : ResponseWriter) (s : State) : Prop where
  alive : s.panicked = false
  range : inRange s.pc n
  ids : s.workers.map Goroutine.id = List.range' 1 (launched s.pc n)
  pcs : ∀ g ∈ s.workers, g.pc ≤ 4
  count : s.wg + (signals s : Int) = (added s.pc n : Int)
  out : s.stdout.Perm (printed (performed s))
  fin : s.pc = Pc.respond ∨ s.pc = Pc.returned → ∀ g ∈ s.workers, g.pc = 4
  resp : s.w = if s.pc = Pc.returned then summary n cpus w0 else w0

/-- Upper bound on the number of steps that remain for the handler goroutine
itself and for the workers it has yet to launch. -/
def todoMain : Pc → Nat → Nat
  | Pc.loop i, n => 6 * (n + 1 - i) + 3
  | Pc.launch i, n => 6 * (n - i) + 8
  | Pc.wait, _ => 2
  | Pc.respond, _ => 1
  | Pc.returned, _ => 0

/-- Upper bound on the number of steps that remain in an invocation. -/
def todo (n : Nat) (s : State) : Nat :=
  todoMain s.pc n + (s.workers.map fun g => 4 - g.pc).sum

/-! ## Lemmas on `worker` -/

theorem worker_eq (id : Nat) :
    worker id =
      [ Effect.print ("Worker " ++ toString id ++ " starting\n"),
        Effect.sleep (2 * Second),
        Effect.print ("Worker " ++ toString id ++ " done\n"),
        Effect.wgDone ] := rfl

theorem worker_length (id : Nat) : (worker id).length = 4 := rfl

theorem executed_succ (g : Goroutine) (e : Effect) (h : (worker g.id)[g.pc]? = some e) :
    executed { g with pc := g.pc + 1 } = executed g ++ [e] := by
  simp [executed, List.take_succ, h]

theorem next_lt (g : Goroutine) (e : Effect) (h : (worker g.id)[g.pc]? = some e) :
    g.pc < 4 := by
  by_contra hc
  have hlen : (worker g.id).length ≤ g.pc := by
    rw [worker_length]; omega
  rw [List.getElem?_eq_none hlen] at h
  cases h

theorem next_some (g : Goroutine) (h : g.pc < 4) : ∃ e, (worker g.id)[g.pc]? = some e := by
  have hlt : g.pc < (worker g.id).length := by rw [worker_length]; exact h
  exact ⟨(worker g.id)[g.pc], List.getElem?_eq_getElem hlt⟩

theorem count_executed (g : Goroutine) (h : g.pc ≤ 4) :
    (executed g).count Effect.wgDone = if g.pc = 4 then 1 else 0 := by
  obtain ⟨id, pc⟩ := g
  simp only at h
  simp only [executed, worker_eq]
  interval_cases pc <;> simp [List.count_cons]

/-- A worker that has signalled has printed its "done" line before. -/
theorem done_before_signal (g : Goroutine) (h : Effect.wgDone ∈ executed g) :
    Effect.print ("Worker " ++ toString g.id ++ " done\n") ∈ executed g := by
  obtain ⟨id, pc⟩ := g
  simp only [executed, worker_eq] at h ⊢
  match pc with
  | 0 => simp at h
  | 1 => simp at h
  | 2 => simp at h
  | 3 => simp at h
  | k + 4 => simp

/-! ## Lemmas on the list of workers -/

theorem flatMap_set_perm {α β : Type} (f : α → List β) (t : List β) (a b : α) :
    ∀ (l : List α) (k : Nat), l[k]? = some a → f b = f a ++ t →
      ((l.set k b).flatMap f).Perm (l.flatMap f ++ t)
  | [], k, h, _ => by simp at h
  | x :: l, 0, h, hf => by
    simp only [List.getElem?_cons_zero, Option.some.injEq] at h
    subst h
    simp only [List.set_cons_zero, List.flatMap_cons, hf, List.append_assoc]
    exact List.Perm.append_left _ List.perm_append_comm
  | x :: l, k + 1, h, hf => by
    simp only [List.getElem?_cons_succ] at h
    simp only [List.set_cons_succ, List.flatMap_cons, List.append_assoc]
    exact List.Perm.append_left _ (flatMap_set_perm f t a b l k h hf)

theorem map_id_set (g : Goroutine) (p : Nat) :
    ∀ (l : List Goroutine) (k : Nat), l[k]? = some g →
      (l.set k { g with pc := p }).map Goroutine.id = l.map Goroutine.id
  | [], k, h => by simp at h
  | x :: l, 0, h => by
    simp only [List.getElem?_cons_zero, Option.some.injEq] at h
    subst h
    simp
  | x :: l, k + 1, h => by
    simp only [List.getElem?_cons_succ] at h
    simp only [List.set_cons_succ, List.map_cons, map_id_set g p l k h]

theorem sum_todo_set (g : Goroutine) (hg : g.pc < 4) :
    ∀ (l : List Goroutine) (k : Nat), l[k]? = some g →
      ((l.set k { g with pc := g.pc + 1 }).map fun x => 4 - x.pc).sum + 1 =
        (l.map fun x => 4 - x.pc).sum
  | [], k, h => by simp at h
  | x :: l, 0, h => by
    simp only [List.getElem?_cons_zero, Option.some.injEq] at h
    subst h
    simp only [List.set_cons_zero, List.map_cons, List.sum_cons]
    omega
  | x :: l, k + 1, h => by
    simp only [List.getElem?_cons_succ] at h
    have ih := sum_todo_set g hg l k h
    simp only [List.set_cons_succ, List.map_cons, List.sum_cons]
    omega

theorem count_signals :
    ∀ (l : List Goroutine), (∀ g ∈ l, g.pc ≤ 4) →
      (l.flatMap executed).count Effect.wgDone = l.countP fun g => decide (g.pc = 4)
  | [], _ => rfl
  | x :: l, h => by
    have hx : x.pc ≤ 4 := h x (List.mem_cons_self _ _)
    have ih := count_signals l fun g hg => h g (List.mem_cons_of_mem _ hg)
    rw [List.flatMap_cons, List.count_append, count_executed x hx, ih, List.countP_cons]
    by_cases h4 : x.pc = 4 <;> simp [h4, Nat.add_comm]

theorem signals_le (s : State) (h : ∀ g ∈ s.workers, g.pc ≤ 4) :
    signals s ≤ s.workers.length := by
  unfold signals performed
  rw [count_signals s.workers h]
  exact List.countP_le_length _

theorem all_done_of_signals (s : State) (h : ∀ g ∈ s.workers, g.pc ≤ 4)
    (hs : signals s = s.workers.length) : ∀ g ∈ s.workers, g.pc = 4 := by
  unfold signals performed at hs
  rw [count_signals s.workers h, List.countP_eq_length] at hs
  intro g hg
  simpa using hs g hg

theorem signals_of_all_done (s : State) (h : ∀ g ∈ s.workers, g.pc = 4) :
    signals s = s.workers.length := by
  unfold signals performed
  rw [count_signals s.workers fun g hg => (h g hg).le, List.countP_eq_length]
  intro g hg
  simpa using h g hg

theorem exists_pending (s : State) (h : ∀ g ∈ s.workers, g.pc ≤ 4)
    (hs : signals s < s.workers.length) :
    ∃ (k : Nat) (g : Goroutine), s.workers[k]? = some g ∧ g.pc < 4 := by
  by_contra hc
  have hall : ∀ g ∈ s.workers, g.pc = 4 := by
    intro g hg
    obtain ⟨k, hk, hkg⟩ := List.getElem_of_mem hg
    have hle := h g hg
    by_contra hne
    exact hc ⟨k, g, by rw [List.getElem?_eq_getElem hk, hkg], by omega⟩
  have := signals_of_all_done s hall
  omega


theorem inv_init (n cpus : Nat) (w0 : ResponseWriter) (r : Request) :
    Inv n cpus w0 (init w0 r) where
  alive := rfl
  range := ⟨le_refl _, by omega⟩
  ids := rfl
  pcs := by intro g hg; simp [init] at hg
  count := by simp [init, signals, performed, added]
  out := by simp [init, performed, printed]
  fin := by intro h; simp [init] at h
  resp := by simp [init]

theorem inv_stepMain {n cpus : Nat} {w0 : ResponseWriter} {s s1 : State}
    (h : Inv n cpus w0 s) (hs : stepMain n cpus s = some s1) : Inv n cpus w0 s1 := by
  obtain ⟨pc, wg, workers, out, w, panicked⟩ := s
  obtain ⟨alive, range, ids, pcs, count, hout, fin, resp⟩ := h
  simp only at alive range ids pcs count hout fin resp
  subst alive
  simp only [stepMain, Bool.false_eq_true, if_false] at hs
  cases pc with
  | loop i =>
    simp only [inRange] at range
    by_cases hi : i ≤ n
    · simp only [hi, if_true, Option.some.injEq] at hs
      subst hs
      refine ⟨rfl, ⟨range.1, hi⟩, ids, pcs, ?_, hout, ?_, ?_⟩
      · simp only [signals, performed, added] at count ⊢
        omega
      · intro hc; simp at hc
      · simpa using resp
    · simp only [hi, if_false, Option.some.injEq] at hs
      subst hs
      have hin : i = n + 1 := by omega
      subst hin
      refine ⟨rfl, trivial, ?_, pcs, ?_, hout, ?_, ?_⟩
      · simpa [launched] using ids
      · simpa [signals, performed, added] using count
      · intro hc; simp at hc
      · simpa using resp
  | launch i =>
    simp only [inRange] at range
    simp only [Option.some.injEq] at hs
    subst hs
    refine ⟨rfl, ⟨by omega, by omega⟩, ?_, ?_, ?_, ?_, ?_, ?_⟩
    · simp only [launched] at ids ⊢
      rw [List.map_append, ids]
      obtain ⟨j, rfl⟩ : ∃ j, i = j + 1 := ⟨i - 1, by omega⟩
      simp [List.range'_concat, Nat.add_comm]
    · intro g hg
      rcases List.mem_append.1 hg with hg | hg
      · exact pcs g hg
      · simp only [List.mem_singleton] at hg
        subst hg
        simp
    · simp only [signals, performed, added, List.flatMap_append] at count ⊢
      simp only [List.flatMap_cons, List.flatMap_nil, executed, List.take_zero, List.append_nil,
        Nat.add_sub_cancel]
      exact count
    · simp only [performed, List.flatMap_append]
      simpa [executed, performed] using hout
    · intro hc; simp at hc
    · simpa using resp
  | wait =>
    by_cases hw : wg = 0
    · simp only [hw, if_true, Option.some.injEq] at hs
      subst hs
      subst hw
      refine ⟨rfl, trivial, ids, pcs, count, hout, ?_, ?_⟩
      · intro _
        apply all_done_of_signals _ pcs
        have hlen : workers.length = n := by
          have := congrArg List.length ids
          simpa [launched] using this
        simp only [added, zero_add] at count
        simp only [hlen]
        exact_mod_cast count
      · simpa using resp
    · simp [hw] at hs
  | respond =>
    simp only [Option.some.injEq] at hs
    subst hs
    refine ⟨rfl, trivial, ids, pcs, count, hout, ?_, ?_⟩
    · intro _; exact fin (Or.inl rfl)
    · simp only [if_true]
      simp at resp
      rw [resp]; rfl
  | returned => simp at hs

theorem printed_append (l1 l2 : List Effect) : printed (l1 ++ l2) = printed l1 ++ printed l2 := by
  simp [printed, List.filterMap_append]

theorem inv_stepWorker {n cpus : Nat} {w0 : ResponseWriter} {s s1 : State} {k : Nat}
    (h : Inv n cpus w0 s) (hs : stepWorker k s = some s1) : Inv n cpus w0 s1 := by
  obtain ⟨pc, wg, workers, out, w, panicked⟩ := s
  have hle := signals_le _ h.pcs
  obtain ⟨alive, range, ids, pcs, count, hout, fin, resp⟩ := h
  simp only at alive range ids pcs count hout fin resp hle
  subst alive
  simp only [stepWorker, Bool.false_eq_true, if_false] at hs
  cases hk : workers[k]? with
  | none => simp [hk] at hs
  | some g =>
    simp only [hk] at hs
    cases he : (worker g.id)[g.pc]? with
    | none => simp [he] at hs
    | some e =>
      simp only [he] at hs
      have hlt : g.pc < 4 := next_lt g e he
      have hmem : g ∈ workers := List.getElem?_mem hk
      have hpc : ¬ (pc = Pc.respond ∨ pc = Pc.returned) := by
        intro hc
        have := fin hc g hmem
        omega
      have hperm := flatMap_set_perm executed [e] g { g with pc := g.pc + 1 } workers k hk
        (executed_succ g e he)
      have hids := map_id_set g (g.pc + 1) workers k hk
      have hpcs : ∀ x ∈ workers.set k { g with pc := g.pc + 1 }, x.pc ≤ 4 := by
        intro x hx
        rcases List.mem_or_eq_of_mem_set hx with hx | hx
        · exact pcs x hx
        · subst hx; simp only; omega
      have hfin : pc = Pc.respond ∨ pc = Pc.returned →
          ∀ x ∈ workers.set k { g with pc := g.pc + 1 }, x.pc = 4 := fun hc => absurd hc hpc
      have hcount : ((workers.set k { g with pc := g.pc + 1 }).flatMap executed).count
          Effect.wgDone = (workers.flatMap executed).count Effect.wgDone +
            [e].count Effect.wgDone := by
        rw [hperm.count_eq, List.count_append]
      have hlen : (workers.set k { g with pc := g.pc + 1 }).length = launched pc n := by
        have := congrArg List.length ids
        simpa using this
      have hadd : launched pc n ≤ added pc n := by
        cases pc <;> simp [launched, added]
      cases e with
      | print text =>
        simp only [Option.some.injEq] at hs
        subst hs
        refine ⟨rfl, range, hids.trans ids, hpcs, ?_, ?_, hfin, resp⟩
        · simp only [signals, performed] at count ⊢
          rw [hcount]; simpa using count
        · simp only [performed]
          refine List.Perm.trans ?_ (List.Perm.filterMap _ hperm.symm)
          have := printed_append (workers.flatMap executed) [Effect.print text]
          simp only [printed] at this ⊢
          rw [this]
          exact List.Perm.append_right _ hout
      | sleep d =>
        simp only [Option.some.injEq] at hs
        subst hs
        refine ⟨rfl, range, hids.trans ids, hpcs, ?_, ?_, hfin, resp⟩
        · simp only [signals, performed] at count ⊢
          rw [hcount]; simpa using count
        · simp only [performed]
          refine List.Perm.trans ?_ (List.Perm.filterMap _ hperm.symm)
          have := printed_append (workers.flatMap executed) [Effect.sleep d]
          simp only [printed] at this ⊢
          rw [this]
          simpa using hout
      | wgDone =>
        have hsig := signals_le
          { pc := pc, wg := wg, workers := workers.set k { g with pc := g.pc + 1 },
            stdout := out, w := w, panicked := false } hpcs
        simp only [signals, performed, hcount, hlen] at hsig count
        simp only [List.count_singleton_self] at hsig
        have hpos : ¬ (wg - 1 < 0) := by omega
        simp only [hpos, if_false, Option.some.injEq] at hs
        subst hs
        refine ⟨rfl, range, hids.trans ids, hpcs, ?_, ?_, hfin, resp⟩
        · simp only [signals, performed]
          rw [hcount]
          simp only [List.count_singleton_self]
          push_cast
          omega
        · simp only [performed]
          refine List.Perm.trans ?_ (List.Perm.filterMap _ hperm.symm)
          have := printed_append (workers.flatMap executed) [Effect.wgDone]
          simp only [printed] at this ⊢
          rw [this]
          simpa using hout

theorem inv_step {n cpus : Nat} {w0 : ResponseWriter} {s s1 : State} {t : Tid}
    (h : Inv n cpus w0 s) (hs : step n cpus t s = some s1) : Inv n cpus w0 s1 := by
  cases t with
  | main => exact inv_stepMain h hs
  | worker k => exact inv_stepWorker h hs

theorem inv_run {n cpus : Nat} {w0 : ResponseWriter} :
    ∀ (sched : List Tid) (s s1 : State), Inv n cpus w0 s → run n cpus sched s = some s1 →
      Inv n cpus w0 s1
  | [], s, s1, h, hs => by
    simp only [run, Option.some.injEq] at hs
    subst hs
    exact h
  | t :: sched, s, s1, h, hs => by
    simp only [run] at hs
    cases hst : step n cpus t s with
    | none => simp [hst] at hs
    | some s2 =>
      simp only [hst] at hs
      exact inv_run sched s2 s1 (inv_step h hst) hs

/-- Every state reached from the entry state satisfies the invariant. -/
theorem inv_reachable {n cpus : Nat} {w0 : ResponseWriter} {r : Request} {sched : List Tid}
    {s : State} (hs : run n cpus sched (init w0 r) = some s) : Inv n cpus w0 s :=
  inv_run sched _ _ (inv_init n cpus w0 r) hs

theorem todo_step {n cpus : Nat} {s s1 : State} {t : Tid}
    (hs : step n cpus t s = some s1) : todo n s1 + 1 ≤ todo n s := by
  obtain ⟨pc, wg, workers, out, w, panicked⟩ := s
  cases t with
  | main =>
    simp only [step, stepMain] at hs
    cases panicked with
    | true => simp at hs
    | false =>
      simp only [Bool.false_eq_true, if_false] at hs
      cases pc with
      | loop i =>
        by_cases hi : i ≤ n
        · simp only [hi, if_true, Option.some.injEq] at hs
          subst hs
          simp only [todo, todoMain]
          omega
        · simp only [hi, if_false, Option.some.injEq] at hs
          subst hs
          simp only [todo, todoMain]
          omega
      | launch i =>
        simp only [Option.some.injEq] at hs
        subst hs
        simp only [todo, todoMain, List.map_append, List.sum_append, List.map_cons, List.map_nil,
          List.sum_cons, List.sum_nil]
        omega
      | wait =>
        by_cases hw : wg = 0
        · simp only [hw, if_true, Option.some.injEq] at hs
          subst hs
          simp only [todo, todoMain]
          omega
        · simp [hw] at hs
      | respond =>
        simp only [Option.some.injEq] at hs
        subst hs
        simp only [todo, todoMain]
        omega
      | returned => simp at hs
  | worker k =>
    simp only [step, stepWorker] at hs
    cases panicked with
    | true => simp at hs
    | false =>
      simp only [Bool.false_eq_true, if_false] at hs
      cases hk : workers[k]? with
      | none => simp [hk] at hs
      | some g =>
        simp only [hk] at hs
        cases he : (worker g.id)[g.pc]? with
        | none => simp [he] at hs
        | some e =>
          simp only [he] at hs
          have hsum := sum_todo_set g (next_lt g e he) workers k hk
          cases e with
          | print text =>
            simp only [Option.some.injEq] at hs
            subst hs
            simp only [todo]
            omega
          | sleep d =>
            simp only [Option.some.injEq] at hs
            subst hs
            simp only [todo]
            omega
          | wgDone =>
            by_cases hneg : wg - 1 < 0
            · simp only [hneg, if_true, Option.some.injEq] at hs
              subst hs
              simp only [todo]
              omega
            · simp only [hneg, if_false, Option.some.injEq] at hs
              subst hs
              simp only [todo]
              omega

theorem todo_run {n cpus : Nat} :
    ∀ (sched : List Tid) (s s1 : State), run n cpus sched s = some s1 →
      sched.length + todo n s1 ≤ todo n s
  | [], s, s1, hs => by
    simp only [run, Option.some.injEq] at hs
    subst hs
    simp
  | t :: sched, s, s1, hs => by
    simp only [run] at hs
    cases hst : step n cpus t s with
    | none => simp [hst] at hs
    | some s2 =>
      simp only [hst] at hs
      have h1 := todo_step hst
      have h2 := todo_run sched s2 s1 hs
      simp only [List.length_cons]
      omega

/-- Every execution from the entry state has at most `6 * n + 3` steps. -/
theorem run_bounded {n cpus : Nat} {w0 : ResponseWriter} {r : Request} {sched : List Tid}
    {s : State} (hs : run n cpus sched (init w0 r) = some s) : sched.length ≤ 6 * n + 3 := by
  have h := todo_run sched _ _ hs
  simp only [init, todo, todoMain, List.map_nil, List.sum_nil] at h
  omega

/-- A state that satisfies the invariant and in which the handler has not
returned can take a step. -/
theorem inv_progress {n cpus : Nat} {w0 : ResponseWriter} {s : State}
    (h : Inv n cpus w0 s) (hp : s.pc ≠ Pc.returned) :
    ∃ (t : Tid) (s1 : State), step n cpus t s = some s1 := by
  have hle := signals_le _ h.pcs
  have hex := exists_pending s h.pcs
  obtain ⟨pc, wg, workers, out, w, panicked⟩ := s
  obtain ⟨alive, range, ids, pcs, count, hout, fin, resp⟩ := h
  simp only at alive range ids pcs count hout fin resp hle hp hex
  subst alive
  cases pc with
  | loop i =>
    by_cases hi : i ≤ n
    · exact ⟨Tid.main, _, by
        simp only [step, stepMain, Bool.false_eq_true, if_false, hi, if_true]; rfl⟩
    · exact ⟨Tid.main, _, by
        simp only [step, stepMain, Bool.false_eq_true, if_false, hi]; rfl⟩
  | launch i =>
    exact ⟨Tid.main, _, by simp only [step, stepMain, Bool.false_eq_true, if_false]; rfl⟩
  | wait =>
    by_cases hw : wg = 0
    · exact ⟨Tid.main, _, by
        simp only [step, stepMain, Bool.false_eq_true, if_false, hw, if_true]; rfl⟩
    · have hlen : workers.length = n := by
        have := congrArg List.length ids
        simpa [launched] using this
      simp only [added] at count
      obtain ⟨k, g, hk, hg⟩ := hex (by omega)
      obtain ⟨e, he⟩ := next_some g hg
      cases e with
      | print text =>
        exact ⟨Tid.worker k, _, by
          simp only [step, stepWorker, Bool.false_eq_true, if_false, hk, he]; rfl⟩
      | sleep d =>
        exact ⟨Tid.worker k, _, by
          simp only [step, stepWorker, Bool.false_eq_true, if_false, hk, he]; rfl⟩
      | wgDone =>
        by_cases hneg : wg - 1 < 0
        · exact ⟨Tid.worker k, _, by
            simp only [step, stepWorker, Bool.false_eq_true, if_false, hk, he, hneg, if_true]
            rfl⟩
        · exact ⟨Tid.worker k, _, by
            simp only [step, stepWorker, Bool.false_eq_true, if_false, hk, he, hneg]; rfl⟩
  | respond =>
    exact ⟨Tid.main, _, by simp only [step, stepMain, Bool.false_eq_true, if_false]; rfl⟩
  | returned => exact absurd rfl hp

/-! ## Lemmas on the route table -/

theorem main_mux (L : String → ServeMux → ServeResult) :
    (main L).mux = { entries := [("/", Handler.mainHandler), ("/health", Handler.healthHandler)] } := by
  unfold main
  have h1 : DefaultServeMux.HandleFunc "/" Handler.mainHandler = Except.ok { entries := [("/", Handler.mainHandler)] } := by rfl
  have h2 : ServeMux.HandleFunc { entries := [("/", Handler.mainHandler)] } "/health" Handler.healthHandler = Except.ok { entries := [("/", Handler.mainHandler), ("/health", Handler.healthHandler)] } := by rfl
  rw [h1]; simp only; rw [h2]; simp only
  split <;> rfl

theorem lookup_routes (path : String) :
    (ServeMux.matchPath { entries := [("/", Handler.mainHandler), ("/health", Handler.healthHandler)] } path = some Handler.healthHandler ↔ path = "/health") ∧
    (ServeMux.matchPath { entries := [("/", Handler.mainHandler), ("/health", Handler.healthHandler)] } path = some Handler.mainHandler ↔ path ≠ "/health" ∧ path.toList.head? = some '/') ∧ 
    (ServeMux.matchPath { entries := [("/", Handler.mainHandler), ("/health", Handler.healthHandler)] } path = none ↔ path.toList.head? ≠ some '/') := by
  by_cases h1 : "/" = path
  · subst h1; decide
  · by_cases h2 : "/health" = path
    · subst h2; decide
    · have h3 : path ≠ "/health" := fun h => h2 h.symm
      have hlast1 : "/".toList.getLast? = some '/' := by decide
      have hlast2 : ¬ "/health".toList.getLast? = some '/' := by decide
      simp only [ServeMux.matchPath, List.find?_cons, List.find?_nil, h1, h2, decide_False,
        List.filter_cons, List.filter_nil, hlast1, hlast2, decide_True, Bool.true_and, Bool.false_and]
      cases hp : path.toList with
      | nil => 
        simp [longest, h3]
      | cons c cs =>
        have hpre : "/".toList.isPrefixOf (c :: cs) = decide ('/' = c) := by
          show (('/' == c) && List.isPrefixOf [] cs) = decide ('/' = c)
          simp only [List.isPrefixOf, Bool.and_true]
          by_cases hc : '/' = c
          · subst hc; decide
          · rw [beq_false_of_ne hc, decide_eq_false hc]
        rw [hpre]
        by_cases hc : '/' = c
        · subst hc
          simp [longest, h3]
        · have hc2 : ¬ c = '/' := fun h => hc h.symm
          simp [longest, hc, hc2, h3]

theorem append_slash_ne_health (p : String) : p ++ "/" ≠ "/health" := by
  intro h
  have hd := congrArg String.data h
  rw [String.data_append] at hd
  have hl := congrArg List.getLast? hd
  simp at hl

theorem append_slash_eq_root (p : String) (h : p ++ "/" = "/") : p = "" := by
  have hd := congrArg String.data h
  rw [String.data_append] at hd
  apply String.ext
  have hlen := congrArg List.length hd
  simp at hlen
  have : p.data = [] := List.length_eq_zero.1 (by simpa using hlen)
  simpa using this

theorem registered_routes (p : String) :
    ServeMux.registered
        { entries := [("/", Handler.mainHandler), ("/health", Handler.healthHandler)] } p =
      (decide ("/" = p) || decide ("/health" = p)) := by
  simp [ServeMux.registered]

theorem shouldRedirect_routes (host p : String) :
    ServeMux.shouldRedirect
        { entries := [("/", Handler.mainHandler), ("/health", Handler.healthHandler)] } host p =
      false := by
  unfold ServeMux.shouldRedirect
  split
  · rfl
  · split
    · rfl
    · rename_i hlen
      have hne : p ≠ "" := by
        intro h; subst h; exact hlen rfl
      have h1 : ¬ "/" = p ++ "/" := fun h => hne (append_slash_eq_root p h.symm)
      have h2 : ¬ "/health" = p ++ "/" := fun h => append_slash_ne_health p h.symm
      have h3 : ¬ "/" = host ++ p ++ "/" := by
        intro h
        have h0 := append_slash_eq_root (host ++ p) h.symm
        have hd := congrArg String.length h0
        rw [String.length_append] at hd
        have hz : p.length = 0 := by
          have : ("" : String).length = 0 := rfl
          omega
        exact hlen hz
      have h4 : ¬ "/health" = host ++ p ++ "/" := fun h =>
        append_slash_ne_health (host ++ p) h.symm
      simp [registered_routes, h1, h2, h3, h4]

theorem handler_routes (host p : String) :
    ServeMux.handler
        { entries := [("/", Handler.mainHandler), ("/health", Handler.healthHandler)] } host p =
      match ServeMux.matchPath
          { entries := [("/", Handler.mainHandler), ("/health", Handler.healthHandler)] } p with
      | some h => Dispatch.handler h
      | none => Dispatch.notFound := by
  have hh : ServeMux.hosts
      { entries := [("/", Handler.mainHandler), ("/health", Handler.healthHandler)] } = false := by
    decide
  simp only [ServeMux.handler, hh, Bool.false_eq_true, if_false]

theorem serve_star (mux : ServeMux) (strip : String → String) (t : Target)
    (h : t.requestURI = "*") : mux.ServeHTTP strip t = Dispatch.badRequest := by
  simp only [ServeMux.ServeHTTP, h, if_true]

theorem serve_matched (strip : String → String) (t : Target) (hstar : t.requestURI ≠ "*")
    (hc : t.method = "CONNECT" ∨ cleanPath t.path = t.path) :
    ServeMux.ServeHTTP
        { entries := [("/", Handler.mainHandler), ("/health", Handler.healthHandler)] } strip t =
      match ServeMux.matchPath
          { entries := [("/", Handler.mainHandler), ("/health", Handler.healthHandler)] }
          t.path with
      | some h => Dispatch.handler h
      | none => Dispatch.notFound := by
  simp only [ServeMux.ServeHTTP, hstar, if_false, ServeMux.Handler]
  by_cases hconn : t.method = "CONNECT"
  · simp only [hconn, if_true, shouldRedirect_routes, Bool.false_eq_true, if_false,
      handler_routes]
  · have hcl : cleanPath t.path = t.path := hc.resolve_left hconn
    simp only [hconn, if_false, shouldRedirect_routes, Bool.false_eq_true, hcl, ne_eq,
      not_true_eq_false, handler_routes]

theorem serve_unclean (strip : String → String) (t : Target) (hstar : t.requestURI ≠ "*")
    (hconn : t.method ≠ "CONNECT") (hc : cleanPath t.path ≠ t.path) :
    ServeMux.ServeHTTP
        { entries := [("/", Handler.mainHandler), ("/health", Handler.healthHandler)] } strip t =
      Dispatch.redirect (cleanPath t.path) := by
  simp only [ServeMux.ServeHTTP, hstar, if_false, ServeMux.Handler, hconn,
    shouldRedirect_routes, Bool.false_eq_true, ne_eq, hc, not_false_eq_true, if_true]

theorem serve_routes (strip : String → String) (t : Target) :
    (ServeMux.ServeHTTP
        { entries := [("/", Handler.mainHandler), ("/health", Handler.healthHandler)] } strip t =
          Dispatch.handler Handler.healthHandler ↔
        t.requestURI ≠ "*" ∧ t.path = "/health") ∧
      (ServeMux.ServeHTTP
        { entries := [("/", Handler.mainHandler), ("/health", Handler.healthHandler)] } strip t =
          Dispatch.handler Handler.mainHandler ↔
        t.requestURI ≠ "*" ∧ t.path ≠ "/health" ∧ t.path.toList.head? = some '/' ∧
          (t.method = "CONNECT" ∨ cleanPath t.path = t.path)) ∧
      (t.requestURI ≠ "*" → t.method ≠ "CONNECT" → cleanPath t.path ≠ t.path →
        ServeMux.ServeHTTP
          { entries := [("/", Handler.mainHandler), ("/health", Handler.healthHandler)] } strip t =
            Dispatch.redirect (cleanPath t.path)) := by
  obtain ⟨hhealth, hmain, _⟩ := lookup_routes t.path
  have hclean : cleanPath "/health" = "/health" := by decide
  refine ⟨?_, ?_, serve_unclean strip t⟩
  · constructor
    · intro h
      by_cases hstar : t.requestURI = "*"
      · rw [serve_star _ strip t hstar] at h; cases h
      · refine ⟨hstar, ?_⟩
        by_cases hc : t.method = "CONNECT" ∨ cleanPath t.path = t.path
        · rw [serve_matched strip t hstar hc] at h
          apply hhealth.1
          split at h
          · rename_i x hx; cases h; exact hx
          · cases h
        · rw [serve_unclean strip t hstar (fun hm => hc (Or.inl hm))
            (fun hm => hc (Or.inr hm))] at h
          cases h
    · rintro ⟨hstar, hp⟩
      have hc : t.method = "CONNECT" ∨ cleanPath t.path = t.path := by
        right; rw [hp]; exact hclean
      rw [serve_matched strip t hstar hc, hhealth.2 hp]
  · constructor
    · intro h
      by_cases hstar : t.requestURI = "*"
      · rw [serve_star _ strip t hstar] at h; cases h
      · by_cases hc : t.method = "CONNECT" ∨ cleanPath t.path = t.path
        · rw [serve_matched strip t hstar hc] at h
          have hl : ServeMux.matchPath
              { entries := [("/", Handler.mainHandler), ("/health", Handler.healthHandler)] }
              t.path = some Handler.mainHandler := by
            split at h
            · rename_i x hx; cases h; exact hx
            · cases h
          exact ⟨hstar, (hmain.1 hl).1, (hmain.1 hl).2, hc⟩
        · rw [serve_unclean strip t hstar (fun hm => hc (Or.inl hm))
            (fun hm => hc (Or.inr hm))] at h
          cases h
    · rintro ⟨hstar, hp, hhd, hc⟩
      rw [serve_matched strip t hstar hc, hmain.2 ⟨hp, hhd⟩]

/-- The dispatch of the registered routes on some concrete requests: paths
that are not canonical are redirected, `/health/` and `/health/x` fall in
the tree of `/`. -/
theorem serve_examples :
    cleanPath "/foo/../health" = "/health" ∧ cleanPath "//health" = "/health" ∧
      cleanPath "/a/./b" = "/a/b" ∧ cleanPath "/health/" = "/health/" ∧
      cleanPath "" = "/" ∧ cleanPath "/foo" = "/foo" ∧
      ([ "//health", "/a/./b", "/health/", "/health", "/", "" ].map fun p =>
        ServeMux.ServeHTTP
          { entries := [("/", Handler.mainHandler), ("/health", Handler.healthHandler)] }
          (fun h => h)
          { requestURI := p, method := "GET", host := "localhost:8080", urlHost := "",
            path := p }) =
        [ Dispatch.redirect "/health", Dispatch.redirect "/a/b",
          Dispatch.handler Handler.mainHandler, Dispatch.handler Handler.healthHandler,
          Dispatch.handler Handler.mainHandler, Dispatch.redirect "/" ] := by
  decide

/-! ## Lemmas on the summary text -/

theorem sprintf_summary (n cpus : Nat) :
    Sprintf "Completed %d workers using %d CPUs\n" [(n : Int), (cpus : Int)] =
      "Completed " ++ toString n ++ " workers using " ++ toString cpus ++ " CPUs\n" := by
  apply String.ext
  have h : ∀ k : Nat, (toString (k : Int)).data = (toString k).data := fun k => rfl
  simp only [Sprintf, String.toList, formatChars, String.data_append, h]
  simp

theorem summary_fresh (n cpus : Nat) :
    summary n cpus ResponseWriter.fresh =
      { status := some 200,
        body := "Completed " ++ toString n ++ " workers using " ++ toString cpus ++
          " CPUs\n" } := by
  have hb : (summary n cpus ResponseWriter.fresh).body =
      Sprintf "Completed %d workers using %d CPUs\n" [(n : Int), (cpus : Int)] := by
    apply String.ext
    simp [summary, Fprintf, ResponseWriter.Write, ResponseWriter.WriteHeader,
      ResponseWriter.fresh, String.data_append]
  have hs : (summary n cpus ResponseWriter.fresh).status = some 200 := rfl
  rw [sprintf_summary] at hb
  cases hsum : summary n cpus ResponseWriter.fresh with
  | mk st bd =>
    rw [hsum] at hb hs
    simp only at hb hs
    rw [hb, hs]

/-! ## Lemmas on final states -/

theorem writer_of_returned {n cpus : Nat} {w0 : ResponseWriter} {s : State}
    (h : Inv n cpus w0 s) (hr : s.pc = Pc.returned) : s.w = summary n cpus w0 := by
  rw [h.resp, if_pos hr]

theorem writer_of_running {n cpus : Nat} {w0 : ResponseWriter} {s : State}
    (h : Inv n cpus w0 s) (hr : s.pc ≠ Pc.returned) : s.w = w0 := by
  rw [h.resp, if_neg hr]

theorem length_workers {n cpus : Nat} {w0 : ResponseWriter} {s : State}
    (h : Inv n cpus w0 s) : s.workers.length = launched s.pc n := by
  have := congrArg List.length h.ids
  simpa using this

theorem launched_le (pc : Pc) (n : Nat) (h : inRange pc n) : launched pc n ≤ n := by
  cases pc <;> simp only [launched, inRange] at h ⊢ <;> omega

theorem launched_le_added (pc : Pc) (n : Nat) : launched pc n ≤ added pc n := by
  cases pc <;> simp [launched, added]

theorem added_le (pc : Pc) (n : Nat) (h : inRange pc n) : added pc n ≤ n := by
  cases pc <;> simp only [added, inRange] at h ⊢ <;> omega

theorem signals_of_finished {n cpus : Nat} {w0 : ResponseWriter} {s : State}
    (h : Inv n cpus w0 s) (hr : s.pc = Pc.respond ∨ s.pc = Pc.returned) : signals s = n := by
  rw [signals_of_all_done s (h.fin hr), length_workers h]
  rcases hr with hr | hr <;> rw [hr] <;> rfl

theorem workers_of_all_done :
    ∀ (l : List Goroutine), (∀ g ∈ l, g.pc = 4) →
      l = (l.map Goroutine.id).map fun i => { id := i, pc := 4 }
  | [], _ => rfl
  | x :: l, h => by
    have hx := h x (List.mem_cons_self _ _)
    have ih := workers_of_all_done l fun g hg => h g (List.mem_cons_of_mem _ hg)
    obtain ⟨id, pc⟩ := x
    simp only at hx
    subst hx
    simp only [List.map_cons, List.cons.injEq, true_and]
    exact ih

theorem terminal_of_returned {n cpus : Nat} {w0 : ResponseWriter} {s : State}
    (h : Inv n cpus w0 s) (hr : s.pc = Pc.returned) (t : Tid) : step n cpus t s = none := by
  cases t with
  | main => simp [step, stepMain, hr]
  | worker k =>
    simp only [step, stepWorker]
    split
    · rfl
    · cases hk : s.workers[k]? with
      | none => rfl
      | some g =>
        have hg : g.pc = 4 := h.fin (Or.inr hr) g (List.getElem?_mem hk)
        have hnone : (worker g.id)[g.pc]? = none := by
          rw [hg]; rfl
        simp only [hnone]

/-! ## The properties of the specification -/

/-- C1: for every request, `healthHandler` on a new response writer leaves the
status 200 and a body that is exactly the two characters `OK`. -/
theorem healthHandler_ok (r : Request) :
    (healthHandler ResponseWriter.fresh r).status = some 200 ∧
      (healthHandler ResponseWriter.fresh r).body = "OK" ∧
      (healthHandler ResponseWriter.fresh r).body.length = 2 ∧
      healthHandler ResponseWriter.fresh r = { status := some 200, body := "OK" } :=
  ⟨rfl, rfl, rfl, rfl⟩

/-- C2: for every request and every CPU count `cpus`, in every execution of
`mainHandler`: once the handler has returned, the status is 200 and the body
is exactly `Completed 5 workers using <cpus> CPUs` followed by one newline
(so it contains `Completed 5 workers` and `CPUs`); before that nothing has
been written on the response (the status comes from the write alone), and
some thread can still take a step; and the execution has at most 33 steps, so
every execution ends with the handler returned. -/
theorem mainHandler_response (cpus : Nat) (r : Request) (sched : List Tid) (s : State)
    (h : mainHandler cpus ResponseWriter.fresh r sched = some s) :
    (s.pc = Pc.returned →
        s.w.status = some 200 ∧
        s.w.body = "Completed 5 workers using " ++ toString cpus ++ " CPUs\n" ∧
        Contains s.w.body "Completed 5 workers" ∧ Contains s.w.body "CPUs") ∧
      (s.pc ≠ Pc.returned →
        s.w = ResponseWriter.fresh ∧
        ∃ (t : Tid) (s1 : State), step numWorkers cpus t s = some s1) ∧
      sched.length ≤ 33 := by
  have hinv : Inv numWorkers cpus ResponseWriter.fresh s := inv_reachable h
  refine ⟨fun hr => ?_, fun hr => ⟨writer_of_running hinv hr, inv_progress hinv hr⟩, ?_⟩
  · have hw := writer_of_returned hinv hr
    have hbody : s.w.body = "Completed 5 workers using " ++ toString cpus ++ " CPUs\n" := by
      rw [hw]; rfl
    refine ⟨by rw [hw]; rfl, hbody, ?_, ?_⟩
    · refine ⟨[], (" using " ++ toString cpus ++ " CPUs\n").toList, ?_⟩
      rw [hbody]
      simp only [String.toList, String.data_append, List.nil_append, List.append_assoc]
      rfl
    · refine ⟨("Completed 5 workers using " ++ toString cpus ++ " ").toList, "\n".toList, ?_⟩
      rw [hbody]
      simp only [String.toList, String.data_append, List.append_assoc]
      rfl
  · have := run_bounded h
    simpa [numWorkers] using this

/-- An execution of `mainHandler` that returns, with its response. -/
theorem mainHandler_response_witness :
    mainHandler 4 ResponseWriter.fresh getRoot lockstep = some finished ∧
      finished.w.status = some 200 ∧
      finished.w.body = "Completed 5 workers using " ++ toString 4 ++ " CPUs\n" :=
  ⟨by decide,
    ((mainHandler_response 4 getRoot lockstep finished (by decide)).1 rfl).1,
    ((mainHandler_response 4 getRoot lockstep finished (by decide)).1 rfl).2.1⟩

/-- C3: in every execution of `mainHandler`, while fewer than 5 workers have
signalled the WaitGroup the call `wg.Wait()` cannot return, and whenever the
handler is past `wg.Wait()` or anything has been written on the response,
all 5 workers have signalled. -/
theorem mainHandler_barrier (cpus : Nat) (r : Request) (sched : List Tid) (s : State)
    (h : mainHandler cpus ResponseWriter.fresh r sched = some s) :
    (s.pc = Pc.wait → signals s < 5 → stepMain numWorkers cpus s = none) ∧
      (s.pc = Pc.respond ∨ s.pc = Pc.returned → signals s = 5) ∧
      (s.w ≠ ResponseWriter.fresh → signals s = 5) := by
  have hinv : Inv numWorkers cpus ResponseWriter.fresh s := inv_reachable h
  refine ⟨fun hp hlt => ?_, fun hp => signals_of_finished hinv hp, fun hw => ?_⟩
  · have hc := hinv.count
    rw [hp] at hc
    simp only [added, numWorkers] at hc
    have hne : s.wg ≠ 0 := by omega
    simp [stepMain, hinv.alive, hp, hne]
  · have hr : s.pc = Pc.returned := by
      by_contra hne
      exact hw (writer_of_running hinv hne)
    exact signals_of_finished hinv (Or.inr hr)

/-- A state of `mainHandler` in which the handler is blocked at `wg.Wait()`. -/
theorem mainHandler_barrier_witness :
    mainHandler 4 ResponseWriter.fresh getRoot launchAll = some waiting ∧
      signals waiting < 5 ∧ stepMain numWorkers 4 waiting = none :=
  ⟨by decide, by decide,
    (mainHandler_barrier 4 getRoot launchAll waiting (by decide)).1 rfl (by decide)⟩

/-- C4, as the code has it: the route table registered by `main` is not
exact-match on `/`.  By the dispatch of Go's `ServeMux`, a request is
dispatched to `healthHandler` exactly when its request URI is not `*` and its
path is `/health`; it is dispatched to `mainHandler` exactly when its request
URI is not `*`, its path begins with `/`, is not `/health`, and is in
canonical form (`cleanPath` leaves it unchanged) or the method is `CONNECT`
(the pattern `/` names the whole tree, so `/foo` and `/health/x` reach
`mainHandler`).  Every other request runs neither handler: a request that is
not `CONNECT` and whose path is not canonical is answered with a redirect to
the cleaned path, a request with URI `*` with status 400, and the remaining
ones (path not beginning with `/`) by the not-found handler. -/
theorem main_routes (ListenAndServe : String → ServeMux → ServeResult)
    (stripHostPort : String → String) (t : Target) :
    ((main ListenAndServe).mux.ServeHTTP stripHostPort t =
          Dispatch.handler Handler.healthHandler ↔
        t.requestURI ≠ "*" ∧ t.path = "/health") ∧
      ((main ListenAndServe).mux.ServeHTTP stripHostPort t =
          Dispatch.handler Handler.mainHandler ↔
        t.requestURI ≠ "*" ∧ t.path ≠ "/health" ∧ t.path.toList.head? = some '/' ∧
          (t.method = "CONNECT" ∨ cleanPath t.path = t.path)) ∧
      (t.requestURI ≠ "*" → t.method ≠ "CONNECT" → cleanPath t.path ≠ t.path →
        (main ListenAndServe).mux.ServeHTTP stripHostPort t =
          Dispatch.redirect (cleanPath t.path)) ∧
      (t.requestURI = "*" →
        (main ListenAndServe).mux.ServeHTTP stripHostPort t = Dispatch.badRequest) ∧
      (t.requestURI ≠ "*" → t.method = "CONNECT" ∨ cleanPath t.path = t.path →
        t.path.toList.head? ≠ some '/' →
        (main ListenAndServe).mux.ServeHTTP stripHostPort t = Dispatch.notFound) := by
  rw [main_mux]
  obtain ⟨h1, h2, h3⟩ := serve_routes stripHostPort t
  refine ⟨h1, h2, h3, serve_star _ stripHostPort t, fun hstar hc hhd => ?_⟩
  rw [serve_matched stripHostPort t hstar hc, (lookup_routes t.path).2.2.2 hhd]

/-- A request with a path that is not canonical is redirected to the cleaned
path and reaches neither handler. -/
theorem main_routes_witness :
    getDotDot.requestURI ≠ "*" ∧ getDotDot.method ≠ "CONNECT" ∧
      cleanPath getDotDot.path = "/health" ∧
      (main fun _ _ => ServeResult.blocks).mux.ServeHTTP (fun h => h) getDotDot =
        Dispatch.redirect "/health" :=
  ⟨by decide, by decide, by decide,
    (main_routes (fun _ _ => ServeResult.blocks) (fun h => h) getDotDot).2.2.1
      (by decide) (by decide) (by decide)⟩

/-- C4 as stated fails: the paths `/foo` and `/health/x` are not `/`, yet the
mux with the route table registered by `main` dispatches requests for both to
`mainHandler`. -/
theorem main_routes_not_exact :
    (main fun _ _ => ServeResult.blocks).mux.ServeHTTP (fun h => h) getFoo =
        Dispatch.handler Handler.mainHandler ∧
      getFoo.path = "/foo" ∧ "/foo" ≠ "/" ∧
      (main fun _ _ => ServeResult.blocks).mux.ServeHTTP (fun h => h) getHealthX =
        Dispatch.handler Handler.mainHandler ∧
      getHealthX.path = "/health/x" ∧ "/health/x" ≠ "/" := by
  decide

/-- C5: in every execution of `mainHandler` that has returned, the workers
launched are those with the ordinals 1, 2, 3, 4, 5, in this order; standard
output holds, up to order, exactly one "starting" line and one "done" line
for each of the five ordinals and nothing else; no thread can take a further
step; and on a host with 4 CPUs the body is
`Completed 5 workers using 4 CPUs` followed by a newline, with status 200. -/
theorem mainHandler_events (cpus : Nat) (r : Request) (sched : List Tid) (s : State)
    (h : mainHandler cpus ResponseWriter.fresh r sched = some s) (hr : s.pc = Pc.returned) :
    s.workers.map Goroutine.id = [1, 2, 3, 4, 5] ∧
      s.stdout.Perm
        [ "Worker 1 starting\n", "Worker 1 done\n", "Worker 2 starting\n", "Worker 2 done\n",
          "Worker 3 starting\n", "Worker 3 done\n", "Worker 4 starting\n", "Worker 4 done\n",
          "Worker 5 starting\n", "Worker 5 done\n" ] ∧
      (∀ t : Tid, step numWorkers cpus t s = none) ∧
      (cpus = 4 →
        s.w = { status := some 200, body := "Completed 5 workers using 4 CPUs\n" }) := by
  have hinv : Inv numWorkers cpus ResponseWriter.fresh s := inv_reachable h
  have hids : s.workers.map Goroutine.id = [1, 2, 3, 4, 5] := by
    rw [hinv.ids, hr]; rfl
  have hws : s.workers = fiveWorkers 4 := by
    rw [workers_of_all_done s.workers (hinv.fin (Or.inr hr)), hids]; rfl
  refine ⟨hids, ?_, terminal_of_returned hinv hr, fun hc => ?_⟩
  · have hout := hinv.out
    simp only [performed, hws] at hout
    exact hout
  · rw [writer_of_returned hinv hr, hc]; rfl

/-- A complete execution of `mainHandler` on a host with 4 CPUs. -/
theorem mainHandler_events_witness :
    mainHandler 4 ResponseWriter.fresh getRoot eager = some finishedEager ∧
      finishedEager.pc = Pc.returned ∧
      finishedEager.workers.map Goroutine.id = [1, 2, 3, 4, 5] ∧
      finishedEager.w = { status := some 200, body := "Completed 5 workers using 4 CPUs\n" } :=
  ⟨by decide, rfl,
    (mainHandler_events 4 getRoot eager finishedEager (by decide) rfl).1,
    (mainHandler_events 4 getRoot eager finishedEager (by decide) rfl).2.2.2 rfl⟩

/-- C6: with `numWorkers = 0`, in every execution of the executor no worker
is launched, nothing is printed, the WaitGroup counter is zero, so that at
`wg.Wait()` the handler is not blocked and moves on at once; the three
handler steps are a complete execution, and it ends with status 200 and the
body `Completed 0 workers using <cpus> CPUs` followed by a newline; no
execution is longer than three steps, and one that has returned carries this
response. -/
theorem executor_zero (cpus : Nat) (r : Request) (sched : List Tid) (s : State)
    (h : executor 0 cpus ResponseWriter.fresh r sched = some s) :
    s.workers = [] ∧ s.stdout = [] ∧ s.wg = 0 ∧
      (s.pc = Pc.wait → stepMain 0 cpus s = some { s with pc := Pc.respond }) ∧
      (s.pc = Pc.returned →
        s.w = { status := some 200,
                body := "Completed 0 workers using " ++ toString cpus ++ " CPUs\n" }) ∧
      executor 0 cpus ResponseWriter.fresh r [Tid.main, Tid.main, Tid.main] =
        some { pc := Pc.returned, wg := 0, workers := [], stdout := [],
               w := { status := some 200,
                      body := "Completed 0 workers using " ++ toString cpus ++ " CPUs\n" },
               panicked := false } ∧
      sched.length ≤ 3 := by
  have hinv : Inv 0 cpus ResponseWriter.fresh s := inv_reachable h
  have hlen : s.workers.length = 0 := by
    have h1 := length_workers hinv
    have h2 := launched_le s.pc 0 hinv.range
    omega
  have hws : s.workers = [] := List.length_eq_zero.1 hlen
  have hsig : signals s = 0 := by
    simp [signals, performed, hws]
  have hout : s.stdout = [] := by
    have := hinv.out
    simp only [performed, hws, List.flatMap_nil, printed, List.filterMap_nil] at this
    exact List.Perm.eq_nil this
  have hwg : s.wg = 0 := by
    have hc := hinv.count
    have ha := added_le s.pc 0 hinv.range
    rw [hsig] at hc
    have : (added s.pc 0 : Int) = 0 := by exact_mod_cast Nat.le_zero.1 ha
    omega
  refine ⟨hws, hout, hwg, fun hp => ?_, fun hp => ?_, rfl, ?_⟩
  · simp [stepMain, hinv.alive, hp, hwg]
  · rw [writer_of_returned hinv hp]; rfl
  · simpa using run_bounded h

/-- The complete execution with no worker on a host with 4 CPUs. -/
theorem executor_zero_witness :
    executor 0 4 ResponseWriter.fresh getRoot [Tid.main, Tid.main, Tid.main] =
        some finishedNone ∧
      finishedNone.workers = [] ∧ finishedNone.stdout = [] ∧
      finishedNone.w = { status := some 200, body := "Completed 0 workers using 4 CPUs\n" } :=
  ⟨by decide,
    (executor_zero 4 getRoot [Tid.main, Tid.main, Tid.main] finishedNone (by decide)).1,
    (executor_zero 4 getRoot [Tid.main, Tid.main, Tid.main] finishedNone (by decide)).2.1,
    (executor_zero 4 getRoot [Tid.main, Tid.main, Tid.main] finishedNone
      (by decide)).2.2.2.2.1 rfl⟩

/-- C7: a call of `worker` signals the WaitGroup exactly once; in every
reachable state of an invocation with `n` workers (`mainHandler` is the case
`n = 5`) no worker has signalled more than once, the number of signals is at
most the number of workers launched, which is at most `n`, the WaitGroup
counter lies between 0 and `n`, and no `wg.Done()` has panicked; a worker
that ran to its end has signalled once; the WaitGroup starts as the zero
value of the invocation, and when two invocations are in progress a step of
the other one leaves this invocation, its WaitGroup included, unchanged. -/
theorem executor_waitgroup (n cpus : Nat) (r : Request) (sched : List Tid) (s : State)
    (h : executor n cpus ResponseWriter.fresh r sched = some s) :
    (∀ id : Nat, (worker id).count Effect.wgDone = 1) ∧
      (∀ g ∈ s.workers, (executed g).count Effect.wgDone ≤ 1) ∧
      (∀ g ∈ s.workers, g.pc = 4 → (executed g).count Effect.wgDone = 1) ∧
      signals s ≤ s.workers.length ∧ s.workers.length ≤ n ∧
      0 ≤ s.wg ∧ s.wg ≤ (n : Int) ∧ s.panicked = false ∧
      (init ResponseWriter.fresh r).wg = 0 ∧
      (∀ (t : Tid) (other : State) (p : State × State),
        stepBoth n cpus true t (s, other) = some p → p.1 = s ∧ p.1.wg = s.wg) := by
  have hinv : Inv n cpus ResponseWriter.fresh s := inv_reachable h
  have hsig := signals_le s hinv.pcs
  have hlen := length_workers hinv
  have hl := launched_le s.pc n hinv.range
  have hla := launched_le_added s.pc n
  have ha := added_le s.pc n hinv.range
  have hc := hinv.count
  refine ⟨fun id => ?_, fun g hg => ?_, fun g hg h4 => ?_, hsig, by omega, by omega, by omega,
    hinv.alive, rfl, fun t other p hp => ?_⟩
  · simp [worker_eq, List.count_cons]
  · rw [count_executed g (hinv.pcs g hg)]
    split <;> omega
  · rw [count_executed g (hinv.pcs g hg), if_pos h4]
  · simp only [stepBoth, if_true] at hp
    cases hst : step n cpus t other with
    | none => simp [hst] at hp
    | some b =>
      simp only [hst, Option.map_some', Option.some.injEq] at hp
      subst hp
      exact ⟨rfl, rfl⟩

/-- The invariant at the end of a complete execution of `mainHandler`. -/
theorem executor_waitgroup_witness :
    executor 5 4 ResponseWriter.fresh getRoot lockstep = some finished ∧
      signals finished ≤ finished.workers.length ∧ finished.workers.length ≤ 5 ∧
      0 ≤ finished.wg ∧ finished.wg ≤ 5 :=
  ⟨by decide,
    (executor_waitgroup 5 4 getRoot lockstep finished (by decide)).2.2.2.1,
    (executor_waitgroup 5 4 getRoot lockstep finished (by decide)).2.2.2.2.1,
    (executor_waitgroup 5 4 getRoot lockstep finished (by decide)).2.2.2.2.2.1,
    (executor_waitgroup 5 4 getRoot lockstep finished (by decide)).2.2.2.2.2.2.1⟩

/-- C8: for a fixed number of workers `n` and CPU count `cpus`, any two
executions of the handler that have returned, on any two requests and under
any two schedules, leave the same response (status and body); it is the
summary determined by `n` and `cpus` alone. -/
theorem executor_deterministic (n cpus : Nat) (r1 r2 : Request) (sched1 sched2 : List Tid)
    (s1 s2 : State)
    (h1 : executor n cpus ResponseWriter.fresh r1 sched1 = some s1)
    (h2 : executor n cpus ResponseWriter.fresh r2 sched2 = some s2)
    (hr1 : s1.pc = Pc.returned) (hr2 : s2.pc = Pc.returned) :
    s1.w = s2.w ∧
      s1.w = { status := some 200,
               body := "Completed " ++ toString n ++ " workers using " ++ toString cpus ++
                 " CPUs\n" } := by
  have hw1 := writer_of_returned (inv_reachable h1) hr1
  have hw2 := writer_of_returned (inv_reachable h2) hr2
  refine ⟨by rw [hw1, hw2], ?_⟩
  rw [hw1, summary_fresh]

/-- Two executions of `mainHandler` on different requests, in which the
workers finish in different orders, with the same response. -/
theorem executor_deterministic_witness :
    executor 5 4 ResponseWriter.fresh getRoot lockstep = some finished ∧
      executor 5 4 ResponseWriter.fresh postOther eager = some finishedEager ∧
      getRoot ≠ postOther ∧ finished.stdout ≠ finishedEager.stdout ∧
      finished.w = finishedEager.w :=
  ⟨by decide, by decide, by decide, by decide,
    (executor_deterministic 5 4 getRoot postOther lockstep eager finished finishedEager
      (by decide) (by decide) rfl rfl).1⟩

/-- C9: whatever `http.ListenAndServe` does, `main` has registered the
patterns `/` and `/health` when it calls it, the address it passes is
`:8080` (empty host, port 8080), and if the call returns the error `err` then
`main` panics with `err` and does not return normally. -/
theorem main_listen (ListenAndServe : String → ServeMux → ServeResult) (err : String)
    (h : ListenAndServe ":8080"
      { entries := [("/", Handler.mainHandler), ("/health", Handler.healthHandler)] } =
        ServeResult.returns (some err)) :
    (main ListenAndServe).mux =
        { entries := [("/", Handler.mainHandler), ("/health", Handler.healthHandler)] } ∧
      (main ListenAndServe).listening = some ":8080" ∧
      SplitHostPort ":8080" = some ("", "8080") ∧
      (main ListenAndServe).exit = Exit.panicked err ∧
      (main ListenAndServe).exit ≠ Exit.returned := by
  have hexit : (main ListenAndServe).exit = Exit.panicked err := by
    have h1 : DefaultServeMux.HandleFunc "/" Handler.mainHandler =
        Except.ok { entries := [("/", Handler.mainHandler)] } := by rfl
    have h2 : ServeMux.HandleFunc { entries := [("/", Handler.mainHandler)] } "/health"
        Handler.healthHandler =
          Except.ok
            { entries := [("/", Handler.mainHandler), ("/health", Handler.healthHandler)] } := by
      rfl
    unfold main
    rw [h1]; simp only; rw [h2]; simp only [h]
  have hlisten : (main ListenAndServe).listening = some ":8080" := by
    have h1 : DefaultServeMux.HandleFunc "/" Handler.mainHandler =
        Except.ok { entries := [("/", Handler.mainHandler)] } := by rfl
    have h2 : ServeMux.HandleFunc { entries := [("/", Handler.mainHandler)] } "/health"
        Handler.healthHandler =
          Except.ok
            { entries := [("/", Handler.mainHandler), ("/health", Handler.healthHandler)] } := by
      rfl
    unfold main
    rw [h1]; simp only; rw [h2]; simp only [h]
  refine ⟨main_mux ListenAndServe, hlisten, by decide, hexit, ?_⟩
  rw [hexit]
  exact fun hc => Exit.noConfusion hc

/-- A bind failure: `http.ListenAndServe` returns an error at once. -/
theorem main_listen_witness :
    (main fun _ _ => ServeResult.returns (some "listen tcp :8080: bind: address already in use")).exit =
        Exit.panicked "listen tcp :8080: bind: address already in use" ∧
      (main fun _ _ =>
        ServeResult.returns (some "listen tcp :8080: bind: address already in use")).listening =
        some ":8080" :=
  ⟨(main_listen (fun _ _ => ServeResult.returns
        (some "listen tcp :8080: bind: address already in use"))
      "listen tcp :8080: bind: address already in use" rfl).2.2.2.1,
    (main_listen (fun _ _ => ServeResult.returns
        (some "listen tcp :8080: bind: address already in use"))
      "listen tcp :8080: bind: address already in use" rfl).2.1⟩

/-- C10: the effects of `worker(id, wg)` are, in this order, the line
`Worker <id> starting`, a sleep of `2 * time.Second` (two seconds, in
nanoseconds), the line `Worker <id> done`
and one `wg.Done()`; so in every reachable state of an invocation a worker
that has signalled has printed its "done" line, and once `wg.Wait()` has
returned the "done" line of each of the `n` workers is on standard output. -/
theorem worker_effects (n cpus : Nat) (r : Request) (sched : List Tid) (s : State)
    (h : executor n cpus ResponseWriter.fresh r sched = some s) :
    (∀ id : Nat, worker id =
        [ Effect.print ("Worker " ++ toString id ++ " starting\n"),
          Effect.sleep (2 * Second),
          Effect.print ("Worker " ++ toString id ++ " done\n"),
          Effect.wgDone ]) ∧
      2 * Second = 2000000000 ∧
      (∀ g ∈ s.workers, Effect.wgDone ∈ executed g →
        Effect.print ("Worker " ++ toString g.id ++ " done\n") ∈ executed g) ∧
      (s.pc = Pc.respond ∨ s.pc = Pc.returned →
        ∀ i : Nat, 1 ≤ i → i ≤ n → ("Worker " ++ toString i ++ " done\n") ∈ s.stdout) := by
  have hinv : Inv n cpus ResponseWriter.fresh s := inv_reachable h
  refine ⟨fun id => rfl, rfl, fun g _ hg => done_before_signal g hg, fun hp i h1 hn => ?_⟩
  have hl : launched s.pc n = n := by
    rcases hp with hp | hp <;> rw [hp] <;> rfl
  have hi : i ∈ s.workers.map Goroutine.id := by
    rw [hinv.ids, hl, List.mem_range'_1]
    omega
  obtain ⟨g, hg, hgi⟩ := List.mem_map.1 hi
  have h4 : g.pc = 4 := hinv.fin hp g hg
  have hex : Effect.print ("Worker " ++ toString i ++ " done\n") ∈ executed g := by
    rw [← hgi]
    exact done_before_signal g (by simp [executed, worker_eq, h4])
  have hperf : Effect.print ("Worker " ++ toString i ++ " done\n") ∈ performed s :=
    List.mem_flatMap.2 ⟨g, hg, hex⟩
  have hpr : ("Worker " ++ toString i ++ " done\n") ∈ printed (performed s) :=
    List.mem_filterMap.2 ⟨_, hperf, rfl⟩
  exact hinv.out.mem_iff.2 hpr

/-- The "done" line of the third worker at the end of an execution of
`mainHandler`. -/
theorem worker_effects_witness :
    executor 5 4 ResponseWriter.fresh getRoot eager = some finishedEager ∧
      ("Worker " ++ toString 3 ++ " done\n") ∈ finishedEager.stdout :=
  ⟨by decide,
    (worker_effects 5 4 getRoot eager finishedEager (by decide)).2.2.2 (Or.inr rfl) 3
      (by decide) (by decide)⟩

end Server
